import Mathlib

/-!
Verification development for the `tfh-mitm` middlebox.

Packets and stream payloads are modelled as `List Nat` of byte values
(each `< 256` where byte-ness matters).  Machine integers of the source
(`u16`, `u32`, `usize`) are modelled as `Nat` with explicit `% 2 ^ w`
wherever the source's arithmetic can wrap.
-/

namespace TfhMitm

/-- One's-complement addition with end-around carry, from
`ones_complement_add` in `src/packet.rs`: `overflowing_add` followed by
adding the carry back in. -/
def ones_complement_add (x y : Nat) : Nat :=
  (x + y) % 65536 + (if 65536 ≤ x + y then 1 else 0)

/-- Big-endian `u16` read at offset `i` of a byte list (`Bytes::u16_be`).
Out-of-range bytes read as `0` (the Rust code would panic there; all
uses in the claims are in bounds). -/
def u16be (l : List Nat) (i : Nat) : Nat :=
  l.getD i 0 * 256 + l.getD (i + 1) 0

/-- Big-endian `u32` read at offset `i` of a byte list (`Bytes::u32_be`). -/
def u32be (l : List Nat) (i : Nat) : Nat :=
  l.getD i 0 * 2 ^ 24 + l.getD (i + 1) 0 * 2 ^ 16 +
    l.getD (i + 2) 0 * 2 ^ 8 + l.getD (i + 3) 0

/-- Little-endian `u32` read at offset `i` of a byte list (`Bytes::u32_le`). -/
def u32le (l : List Nat) (i : Nat) : Nat :=
  l.getD i 0 + l.getD (i + 1) 0 * 2 ^ 8 +
    l.getD (i + 2) 0 * 2 ^ 16 + l.getD (i + 3) 0 * 2 ^ 24

/-- IPv4 version nibble: `Ipv4Header::version`, `byte[0] >> 4`. -/
def version (p : List Nat) : Nat := p.getD 0 0 / 16

/-- IPv4 header length nibble: `Ipv4Header::ihl`, `byte[0] & 0x0f`. -/
def ihl (p : List Nat) : Nat := p.getD 0 0 % 16

/-- `Packet::is_ipv4`: the version nibble equals 4. -/
def is_ipv4 (p : List Nat) : Bool := version p = 4

/-- `Ipv4Header::protocol`: byte 9 of the IPv4 header (which starts at
offset 0 of the packet). -/
def protocol (p : List Nat) : Nat := p.getD 9 0

/-- `Packet::is_udp` (the IPv6 arm of the source is `&& false`). -/
def is_udp (p : List Nat) : Bool := is_ipv4 p && decide (protocol p = 17)

/-- `Ipv4Header::source_ip`: big-endian `u32` at bytes 12-15. -/
def source_ip (p : List Nat) : Nat := u32be p 12

/-- `Ipv4Header::dest_ip`: big-endian `u32` at bytes 16-19. -/
def dest_ip (p : List Nat) : Nat := u32be p 16

/-- `Packet::udp_start` for IPv4 packets: `ipv4_end = ipv4_start + ihl*4`. -/
def udp_start (p : List Nat) : Nat := ihl p * 4

/-- `UdpHeader::source_port`: big-endian `u16` at bytes 0-1 of the UDP header. -/
def udp_source_port (p : List Nat) : Nat := u16be p (udp_start p)

/-- `UdpHeader::dest_port`: big-endian `u16` at bytes 2-3 of the UDP header. -/
def udp_dest_port (p : List Nat) : Nat := u16be p (udp_start p + 2)

/-- `UdpHeader::len`: big-endian `u16` at bytes 4-5 of the UDP header. -/
def udp_len_field (p : List Nat) : Nat := u16be p (udp_start p + 4)

/-- `Packet::udp_payload`: the bytes after the 8-byte UDP header. -/
def udp_payload (p : List Nat) : List Nat := p.drop (udp_start p + 8)

/-- The checksum accumulation loop shared by the pseudo-header and
payload loops of `Packet::compute_udp_checksum`: 16-bit big-endian words,
with a trailing lone byte shifted left by 8. -/
def checksumWords : List Nat → Nat → Nat
  | [], acc => acc
  | [b], acc => ones_complement_add acc (b * 256)
  | b0 :: b1 :: rest, acc => checksumWords rest (ones_complement_add acc (b0 * 256 + b1))

/-- The 20-byte pseudo-header array built by `Packet::compute_udp_checksum`
via `put_u32_be` / `put_u8_be` / `put_u16_be` on a zeroed 20-byte buffer:
source ip, dest ip, a zero byte, the protocol, `(data.len() + 8) as u16`,
source port, dest port, the UDP length field, and two zero bytes. -/
def pseudo_header (p : List Nat) (data : List Nat) : List Nat :=
  [source_ip p / 2 ^ 24 % 256, source_ip p / 2 ^ 16 % 256,
   source_ip p / 2 ^ 8 % 256, source_ip p % 256,
   dest_ip p / 2 ^ 24 % 256, dest_ip p / 2 ^ 16 % 256,
   dest_ip p / 2 ^ 8 % 256, dest_ip p % 256,
   0, protocol p,
   (data.length + 8) % 65536 / 256 % 256, (data.length + 8) % 65536 % 256,
   udp_source_port p / 256 % 256, udp_source_port p % 256,
   udp_dest_port p / 256 % 256, udp_dest_port p % 256,
   udp_len_field p / 256 % 256, udp_len_field p % 256,
   0, 0]

/-- `Packet::compute_udp_checksum`.  The non-IPv4 arms of the source
panic or are unimplemented; they are modelled as `none`. -/
def compute_udp_checksum (p : List Nat) (data : List Nat) : Option Nat :=
  if is_ipv4 p then
    let acc := checksumWords (pseudo_header p data) 0
    let acc := checksumWords data acc
    some (if acc = 65535 then 65535 else 65535 - acc)
  else
    none

/-- The summation loop of `Packet::compute_ipv4_checksum`: 16-bit
big-endian words of the header, skipping the word at offset 10 (the
checksum field itself). -/
def ipv4Sum : List Nat → Nat → Nat → Nat
  | [], _, acc => acc
  | [b], _, acc => ones_complement_add acc (b * 256)
  | b0 :: b1 :: rest, i, acc =>
      ipv4Sum rest (i + 2) (if i = 10 then acc else ones_complement_add acc (b0 * 256 + b1))

/-- `Packet::compute_ipv4_checksum`: sum the words of the `ihl*4`-byte
IPv4 header with bytes 10-11 treated as zero, then take the bitwise NOT. -/
def compute_ipv4_checksum (p : List Nat) : Nat :=
  65535 - ipv4Sum (p.take (ihl p * 4)) 0 0

/-- The word sequence of a byte list as the spec describes it: big-endian
16-bit words, a trailing odd byte shifted left by 8. -/
def payloadWords : List Nat → List Nat
  | [] => []
  | [b] => [b * 256]
  | b0 :: b1 :: rest => (b0 * 256 + b1) :: payloadWords rest

/-- The UDP checksum as §4.1 of the spec words it: the bitwise NOT of the
one's-complement sum of the pseudo-header words
`{src_ip, dst_ip, 0x00 ++ protocol, udp_length, src_port, dst_port,
udp_len_field, 0x0000}` followed by the payload words, with a computed
`0x0000` transmitted as `0xFFFF`. -/
def udpChecksumSpec (src dst proto sport dport lenField : Nat) (data : List Nat) : Nat :=
  let words := [src / 2 ^ 16, src % 2 ^ 16, dst / 2 ^ 16, dst % 2 ^ 16,
                proto, (data.length + 8) % 65536, sport, dport, lenField, 0] ++
               payloadWords data
  let acc := words.foldl ones_complement_add 0
  if 65535 - acc = 0 then 65535 else 65535 - acc

/-! Section: The TFH stream reassembler (`src/tfh_stream.rs`) -/

/-- Modelled from the spec: `Packet::is_tfh_stream`, `Packet::tfh_stream`
(with its `my_seq` / `your_seq` accessors) and `Packet::tfh_stream_payload`
are not present under `src/`; §6 of the spec says a TFH stream packet
carries `my_seq` and `your_seq` as big-endian 32-bit fields at fixed
offsets of the UDP payload, the remainder being the per-packet stream
slice.  A `Dgram` records exactly those three projections of a TFH
datagram, the only data `handle_packet` reads from a packet. -/
structure Dgram where
  myS : Nat
  yourS : Nat
  data : List Nat
  deriving Repr, DecidableEq

/-- A chunk record of the reassembler: starting sequence number, length
and acknowledgement (the `Seq → (u32, Seq)` entries of `chunks`). -/
structure Chunk where
  cs : Nat
  cl : Nat
  ack : Nat
  deriving Repr, DecidableEq

/-- One direction of a TFH stream (`TfhStream`): `chunks` is the
`BTreeMap` as a list sorted by strictly increasing `cs`. -/
structure TfhStream where
  start : Nat
  buf : List Nat
  chunks : List Chunk
  sync : Bool
  deriving Repr, DecidableEq

/-- `TfhStream::new`: `start = Seq(!0)`, everything else empty. -/
def TfhStream.new : TfhStream :=
  { start := 2 ^ 32 - 1, buf := [], chunks := [], sync := false }

/-- `BTreeMap::entry` upsert of `handle_packet`: insert `(cs, cl, ack)`
at a vacant key, or merge with `max` on both components at an occupied
key. -/
def chunkInsert : List Chunk → Nat → Nat → Nat → List Chunk
  | [], cs, cl, ack => [⟨cs, cl, ack⟩]
  | c :: rest, cs, cl, ack =>
      if cs < c.cs then ⟨cs, cl, ack⟩ :: c :: rest
      else if cs = c.cs then ⟨cs, max c.cl cl, max c.ack ack⟩ :: rest
      else c :: chunkInsert rest cs cl ack

/-- `copy_slice_into_vec_deque`: write `src` into `dest` at `offset`,
zero-filling the hole between `dest.len()` and `offset` and extending
past the end as needed. -/
def copy_slice_into_vec_deque (dest src : List Nat) (offset : Nat) : List Nat :=
  if dest.length ≤ offset then
    dest ++ List.replicate (offset - dest.length) 0 ++ src
  else
    dest.take offset ++ src ++ dest.drop (offset + src.length)

/-- The best-effort resync at the top of `handle_packet`: when not in
sync and the buffer is empty, the packet's sequence number becomes the
current position in the stream. -/
def resyncState (s : TfhStream) (p : Dgram) : TfhStream :=
  if s.sync = false ∧ s.buf = [] then { s with start := p.myS } else s

/-- `end = start + data.len()` of `handle_packet`, a `Seq + usize` add
that wraps modulo `2^32`. -/
def pktEnd (p : Dgram) : Nat := (p.myS + p.data.length) % 2 ^ 32

/-- The slice of the packet's data that `handle_packet` copies: data
before the stream's current start is dropped. -/
def copyData (t : TfhStream) (p : Dgram) : List Nat :=
  if p.myS < t.start then p.data.drop (t.start - p.myS) else p.data

/-- The buffer offset at which `handle_packet` copies `copyData`. -/
def copyOffset (t : TfhStream) (p : Dgram) : Nat :=
  if p.myS < t.start then 0 else p.myS - t.start

/-- `TfhStream::handle_packet` (after the `is_tfh_stream` early return).
`Seq + usize` wraps modulo `2^32`; both `Seq - Seq` subtractions are
guarded by the comparisons the source performs. -/
def handle_packet (s : TfhStream) (p : Dgram) : TfhStream :=
  let t := resyncState s p
  if pktEnd p < t.start then t
  else
    { t with
      buf := copy_slice_into_vec_deque t.buf (copyData t p) (copyOffset t p),
      sync := if t.start = 0 then true else t.sync,
      chunks := chunkInsert t.chunks p.myS (p.data.length % 2 ^ 32) p.yourS }

/-- The sweep of `TfhStream::count_avail`: extend `e` through the chunk
list in key order, stopping at the first chunk strictly past `e`;
`chunk_start + chunk_len as usize` is a `Seq + usize` add and wraps. -/
def countAvailEnd : List Chunk → Nat → Nat
  | [], e => e
  | c :: rest, e => if e < c.cs then e else countAvailEnd rest (max e ((c.cs + c.cl) % 2 ^ 32))

/-- `TfhStream::count_avail`. -/
def count_avail (s : TfhStream) : Nat :=
  countAvailEnd s.chunks s.start - s.start

/-- A parsed application message (`MessageHeader` plus body). -/
structure Message where
  major : Nat
  minor : Nat
  dir : Nat
  ack : Nat
  len : Nat
  body : List Nat
  deriving Repr, DecidableEq

/-- The 10-byte `raw_header` buffer of `next_message`: the first
`min 10 len` bytes of `buf` from offset 4, the rest zero. -/
def rawHeader (buf : List Nat) (len : Nat) : List Nat :=
  (buf.drop 4).take (min 10 len) ++ List.replicate (10 - min 10 len) 0

/-- The chunk sweep of `next_message`: from the lowest key, while the key
is `< e`, fold the chunk's ack into `ack`; remove the chunk when
`chunk_start + chunk_len ≤ e`, otherwise stop.  Returns the final ack and
the surviving chunk list. -/
def sweepChunks : List Chunk → Nat → Nat → Nat × List Chunk
  | [], _, ack => (ack, [])
  | c :: rest, e, ack =>
      if e ≤ c.cs then (ack, c :: rest)
      else
        let ack' := max ack c.ack
        if (c.cs + c.cl) % 2 ^ 32 ≤ e then sweepChunks rest e ack'
        else (ack', c :: rest)

/-- The frame length `next_message` reads: a big-endian `u32` from the
first four buffered bytes. -/
def frameLen (s : TfhStream) : Nat := u32be s.buf 0

/-- `end = self.start + 4 + len` of `next_message` (a wrapping `Seq`
add). -/
def frameEnd (s : TfhStream) : Nat := (s.start + (4 + frameLen s)) % 2 ^ 32

/-- The major opcode: big-endian `u32` at offset 2 of `raw_header`. -/
def frameMajor (s : TfhStream) : Nat := u32be (rawHeader s.buf (frameLen s)) 2

/-- The minor opcode: little-endian `u32` at offset 6 of `raw_header`
when `major == 0x20`, otherwise 0. -/
def frameMinor (s : TfhStream) : Nat :=
  if frameMajor s = 0x20 then u32le (rawHeader s.buf (frameLen s)) 6 else 0

/-- `header_len = 10 + (4 if major == 0x20 else 0)`. -/
def frameHeaderLen (s : TfhStream) : Nat :=
  10 + (if frameMajor s = 0x20 then 4 else 0)

/-- `body_len = 4 + len - header_len` (the source computes this on
`usize`; `Nat` subtraction truncates where the source would underflow
and panic, see `bodyLenUnderflow`). -/
def frameBodyLen (s : TfhStream) : Nat := 4 + frameLen s - frameHeaderLen s

/-- `TfhStream::next_message`.  Returns the message (if any) and the
updated stream. -/
def next_message (s : TfhStream) : Option Message × TfhStream :=
  if s.start = 0 ∧ 1 ≤ count_avail s then
    (some ⟨0, 0, 0xff, 0, 1, [s.buf.headD 0]⟩,
     { s with start := (s.start + 1) % 2 ^ 32, buf := s.buf.drop 1 })
  else if count_avail s < 4 then (none, s)
  else if count_avail s < 4 + frameLen s then (none, s)
  else
    (some ⟨frameMajor s % 256, frameMinor s % 256, 0xff,
           (sweepChunks s.chunks (frameEnd s) 0).1, frameBodyLen s % 2 ^ 32,
           (s.buf.drop (frameHeaderLen s)).take (frameBodyLen s)⟩,
     { s with start := frameEnd s, buf := s.buf.drop (frameEnd s - s.start),
              chunks := (sweepChunks s.chunks (frameEnd s) 0).2 })

/-- True exactly when a call of `next_message` on `s` reaches the body
extraction with `4 + frame_len < header_len`, i.e. when the source's
`usize` computation `body_len = 4 + len - header_len` underflows and
panics. -/
def bodyLenUnderflow (s : TfhStream) : Bool :=
  if s.start = 0 ∧ 1 ≤ count_avail s then false
  else if count_avail s < 4 then false
  else if count_avail s < 4 + frameLen s then false
  else decide (4 + frameLen s < frameHeaderLen s)

/-- Drain `next_message` until it reports `none`, with fuel (each emitted
message consumes at least one buffered byte on reachable states, so
`buf.length + 1` rounds of fuel reproduce the source's `while let` loop). -/
def drainAll : TfhStream → Nat → TfhStream × List Message
  | s, 0 => (s, [])
  | s, fuel + 1 =>
      match next_message s with
      | (none, s') => (s', [])
      | (some m, s') =>
          let r := drainAll s' fuel
          (r.1, m :: r.2)

/-- Feed one datagram and drain all available messages, as the connection
manager's `handle` does per packet. -/
def feedDrain (s : TfhStream) (p : Dgram) : TfhStream × List Message :=
  let s1 := handle_packet s p
  drainAll s1 (s1.buf.length + 1)

/-- Feed a list of datagrams to a fresh `TfhStream`, draining after each,
and collect every emitted message in order. -/
def runMessages (ps : List Dgram) : List Message :=
  (ps.foldl (fun acc p =>
    let r := feedDrain acc.1 p
    (r.1, acc.2 ++ r.2)) (TfhStream.new, [])).2

/-- The states reachable from `TfhStream::new` by `handle_packet` (on
datagrams whose sequence fields fit in a `u32` and whose payload is made
of bytes) and `next_message` calls. -/
inductive Reach : TfhStream → Prop
  | new : Reach TfhStream.new
  | handle (s : TfhStream) (p : Dgram) :
      Reach s → p.myS < 2 ^ 32 → p.yourS < 2 ^ 32 →
      (∀ b ∈ p.data, b < 256) → Reach (handle_packet s p)
  | next (s : TfhStream) : Reach s → Reach (next_message s).2

/-! Section: Invariants of the reassembler -/

/-- The covered extent of the buffer: `buf` holds the byte range
`[start, start + buf.len())`. -/
def extent (s : TfhStream) : Nat := s.start + s.buf.length

/-- The (wrapped) end position a chunk claims. -/
def chunkVal (c : Chunk) : Nat := (c.cs + c.cl) % 2 ^ 32

/-- The `BTreeMap` representation invariant: keys strictly increase. -/
def SortedChunks (l : List Chunk) : Prop :=
  List.Pairwise (fun a b => a.cs < b.cs) l

/-- The inductive state invariant of `TfhStream`: the start fits in a
`u32`; chunk keys strictly increase; every chunk's claimed end is
bounded by the covered extent (or lies at/before its own key); all
chunks are degenerate whenever the stream is unsynced with an empty
buffer (so a resync cannot fabricate coverage); and a stream positioned
at sequence 0 is either synced or has no chunks. -/
def Inv (s : TfhStream) : Prop :=
  s.start < 2 ^ 32 ∧
  SortedChunks s.chunks ∧
  (∀ c ∈ s.chunks, chunkVal c ≤ max (extent s) c.cs) ∧
  (s.sync = false → s.buf = [] → ∀ c ∈ s.chunks, chunkVal c ≤ c.cs) ∧
  (s.start = 0 → s.sync = true ∨ s.chunks = [])

theorem countAvailEnd_ge (l : List Chunk) : ∀ e, e ≤ countAvailEnd l e := by
  induction l with
  | nil => intro e; simp [countAvailEnd]
  | cons c rest ih =>
      intro e
      simp only [countAvailEnd]
      split
      · exact le_refl e
      · exact le_trans (le_max_left e _) (ih _)

theorem countAvailEnd_le (l : List Chunk) (E : Nat)
    (h : ∀ c ∈ l, chunkVal c ≤ max E c.cs) :
    ∀ e, e ≤ E → countAvailEnd l e ≤ E := by
  induction l with
  | nil => intro e he; simpa [countAvailEnd] using he
  | cons c rest ih =>
      intro e he
      simp only [countAvailEnd]
      split
      · exact he
      · rename_i hc
        push_neg at hc
        refine ih (fun c' hc' => h c' (List.mem_cons_of_mem _ hc')) _ (max_le he ?_)
        have hv := h c (List.mem_cons_self _ _)
        rw [max_eq_left (le_trans hc he)] at hv
        exact hv

theorem countAvailEnd_lt (l : List Chunk) : ∀ e, e < 2 ^ 32 → countAvailEnd l e < 2 ^ 32 := by
  induction l with
  | nil => intro e he; simpa [countAvailEnd] using he
  | cons c rest ih =>
      intro e he
      simp only [countAvailEnd]
      split
      · exact he
      · exact ih _ (max_lt he (Nat.mod_lt _ (by norm_num)))

/-- Claim C2's conclusion, derived from the invariant: every byte the
sweep counts as available is actually held in `buf`. -/
theorem avail_le_buf {s : TfhStream} (h : Inv s) : count_avail s ≤ s.buf.length := by
  obtain ⟨_, _, h3, _, _⟩ := h
  have hle := countAvailEnd_le s.chunks (extent s) h3 s.start (Nat.le_add_right _ _)
  simp only [count_avail, extent] at hle ⊢
  omega

theorem splice_length (d sr : List Nat) (o : Nat) :
    (copy_slice_into_vec_deque d sr o).length =
      if d.length ≤ o then o + sr.length else max d.length (o + sr.length) := by
  simp only [copy_slice_into_vec_deque]
  split
  · simp
    omega
  · simp
    omega

theorem splice_length_ge_dest (d sr : List Nat) (o : Nat) :
    d.length ≤ (copy_slice_into_vec_deque d sr o).length := by
  rw [splice_length]
  split <;> omega

theorem splice_length_ge (d sr : List Nat) (o : Nat) :
    o + sr.length ≤ (copy_slice_into_vec_deque d sr o).length := by
  rw [splice_length]
  split <;> omega

theorem splice_eq_nil {d sr : List Nat} {o : Nat}
    (h : copy_slice_into_vec_deque d sr o = []) : d = [] ∧ sr = [] ∧ o = 0 := by
  have h1 := congrArg List.length h
  rw [splice_length] at h1
  simp only [List.length_nil] at h1
  split at h1
  · exact ⟨List.length_eq_zero.mp (by omega), List.length_eq_zero.mp (by omega), by omega⟩
  · exact absurd h1 (by omega)

theorem chunkInsert_keys (l : List Chunk) (cs cl ack : Nat) :
    ∀ c' ∈ chunkInsert l cs cl ack, c'.cs = cs ∨ c' ∈ l := by
  induction l with
  | nil =>
      intro c' hc'
      simp only [chunkInsert, List.mem_singleton] at hc'
      subst hc'
      exact Or.inl rfl
  | cons c rest ih =>
      intro c' hc'
      simp only [chunkInsert] at hc'
      split at hc'
      · rcases List.mem_cons.mp hc' with rfl | hmem
        · exact Or.inl rfl
        · exact Or.inr hmem
      · split at hc'
        · rcases List.mem_cons.mp hc' with rfl | hmem
          · exact Or.inl rfl
          · exact Or.inr (List.mem_cons_of_mem _ hmem)
        · rcases List.mem_cons.mp hc' with rfl | hmem
          · exact Or.inr (List.mem_cons_self _ _)
          · rcases ih c' hmem with h | h
            · exact Or.inl h
            · exact Or.inr (List.mem_cons_of_mem _ h)

theorem chunkInsert_sorted (l : List Chunk) (cs cl ack : Nat) (h : SortedChunks l) :
    SortedChunks (chunkInsert l cs cl ack) := by
  induction l with
  | nil => simp [chunkInsert, SortedChunks]
  | cons c rest ih =>
      rw [SortedChunks, List.pairwise_cons] at h
      obtain ⟨hhead, hrest⟩ := h
      simp only [chunkInsert]
      split
      · rename_i hlt
        rw [SortedChunks, List.pairwise_cons]
        refine ⟨?_, List.pairwise_cons.mpr ⟨hhead, hrest⟩⟩
        intro b hb
        rcases List.mem_cons.mp hb with rfl | hb
        · exact hlt
        · exact lt_trans hlt (hhead b hb)
      · split
        · rename_i hne heq
          rw [SortedChunks, List.pairwise_cons]
          exact ⟨fun b hb => heq ▸ hhead b hb, hrest⟩
        · rename_i hge hne
          rw [SortedChunks, List.pairwise_cons]
          refine ⟨?_, ih hrest⟩
          intro b hb
          rcases chunkInsert_keys rest cs cl ack b hb with hb' | hb'
          · omega
          · exact hhead b hb'

/-- Every chunk member of `chunkInsert l cs cl ack` satisfies `P` when
the old members do, the freshly inserted chunk does, and every
`max`-merge with an old chunk at the same key does. -/
theorem chunkInsert_bound (P : Chunk → Prop) (l : List Chunk) (cs cl ack : Nat)
    (hold : ∀ c ∈ l, P c) (hnew : P ⟨cs, cl, ack⟩)
    (hmerge : ∀ c ∈ l, c.cs = cs → P ⟨cs, max c.cl cl, max c.ack ack⟩) :
    ∀ c' ∈ chunkInsert l cs cl ack, P c' := by
  induction l with
  | nil =>
      intro c' hc'
      simp only [chunkInsert, List.mem_singleton] at hc'
      subst hc'
      exact hnew
  | cons c rest ih =>
      intro c' hc'
      simp only [chunkInsert] at hc'
      split at hc'
      · rcases List.mem_cons.mp hc' with rfl | hmem
        · exact hnew
        · exact hold c' hmem
      · split at hc'
        · rename_i heq
          rcases List.mem_cons.mp hc' with rfl | hmem
          · exact hmerge c (List.mem_cons_self _ _) heq.symm
          · exact hold c' (List.mem_cons_of_mem _ hmem)
        · rcases List.mem_cons.mp hc' with rfl | hmem
          · exact hold c' (List.mem_cons_self _ _)
          · exact ih (fun b hb => hold b (List.mem_cons_of_mem _ hb))
              (fun b hb => hmerge b (List.mem_cons_of_mem _ hb)) c' hmem

theorem sweep_sublist (l : List Chunk) : ∀ e a, (sweepChunks l e a).2.Sublist l := by
  induction l with
  | nil => intro e a; simp [sweepChunks]
  | cons c rest ih =>
      intro e a
      simp only [sweepChunks]
      split
      · exact List.Sublist.refl _
      · split
        · exact List.Sublist.cons _ (ih e _)
        · exact List.Sublist.refl _

theorem sweep_mem {l : List Chunk} {e a : Nat} {c : Chunk}
    (h : c ∈ (sweepChunks l e a).2) : c ∈ l :=
  (sweep_sublist l e a).subset h

/-- When the covered extent coincides with the consumed end `e`, every
chunk surviving the sweep is degenerate: its claimed end is at or before
its own key.  (Such survivors start at or after `e`.) -/
theorem sweep_survivors (l : List Chunk) (e : Nat) (hs : SortedChunks l)
    (hJ : ∀ c ∈ l, chunkVal c ≤ max e c.cs) :
    ∀ a, ∀ c' ∈ (sweepChunks l e a).2, chunkVal c' ≤ c'.cs := by
  induction l with
  | nil => intro a c' hc'; simp [sweepChunks] at hc'
  | cons c rest ih =>
      rw [SortedChunks, List.pairwise_cons] at hs
      obtain ⟨hhead, hrest⟩ := hs
      intro a c' hc'
      simp only [sweepChunks] at hc'
      split at hc'
      · rename_i he
        have hcs : e ≤ c'.cs := by
          rcases List.mem_cons.mp hc' with rfl | hmem
          · exact he
          · exact le_trans he (le_of_lt (hhead c' hmem))
        have hv := hJ c' hc'
        rwa [max_eq_right hcs] at hv
      · rename_i he
        push_neg at he
        split at hc'
        · exact ih hrest (fun b hb => hJ b (List.mem_cons_of_mem _ hb)) _ c' hc'
        · rename_i hv
          exfalso
          have hb := hJ c (List.mem_cons_self _ _)
          rw [max_eq_left (le_of_lt he)] at hb
          exact hv hb

/-- Insertion bound for the covered-extent invariant: inserting a chunk
for an accepted packet keeps every claimed chunk end below the (new)
extent or its own key. -/
theorem accept_J (chunks : List Chunk) (myS dl ys st blen : Nat)
    (hold : ∀ c ∈ chunks, chunkVal c ≤ max (st + blen) c.cs)
    (hA : myS + dl ≤ st + blen) :
    ∀ c' ∈ chunkInsert chunks myS (dl % 2 ^ 32) ys,
      chunkVal c' ≤ max (st + blen) c'.cs := by
  have h1 : (myS + dl % 2 ^ 32) % 2 ^ 32 ≤ myS + dl := by
    have hx := Nat.mod_le (myS + dl % 2 ^ 32) (2 ^ 32)
    have hy := Nat.mod_le dl (2 ^ 32)
    omega
  refine chunkInsert_bound _ _ _ _ _ hold ?_ ?_
  · simp only [chunkVal]
    exact le_trans (le_trans h1 hA) (le_max_left _ _)
  · intro c hc hcs
    simp only [chunkVal]
    try dsimp only
    rcases max_choice c.cl (dl % 2 ^ 32) with hmx | hmx
    · rw [hmx, ← hcs]
      have hv := hold c hc
      simp only [chunkVal] at hv
      exact hv
    · rw [hmx]
      exact le_trans (le_trans h1 hA) (le_max_left _ _)

/-- Insertion bound for the degenerate-chunk invariant: inserting an
empty chunk keeps every chunk degenerate. -/
theorem accept_K (chunks : List Chunk) (myS dl ys : Nat)
    (hdl : dl % 2 ^ 32 = 0) (hold : ∀ c ∈ chunks, chunkVal c ≤ c.cs) :
    ∀ c' ∈ chunkInsert chunks myS (dl % 2 ^ 32) ys, chunkVal c' ≤ c'.cs := by
  refine chunkInsert_bound _ _ _ _ _ hold ?_ ?_
  · simp only [chunkVal]
    try dsimp only
    rw [hdl]
    simpa using Nat.mod_le myS (2 ^ 32)
  · intro c hc hcs
    simp only [chunkVal]
    try dsimp only
    rw [hdl]
    have hmx : max c.cl 0 = c.cl := by omega
    rw [hmx, ← hcs]
    exact hold c hc

theorem inv_handle {s : TfhStream} (p : Dgram) (h : Inv s) (hm : p.myS < 2 ^ 32) :
    Inv (handle_packet s p) := by
  obtain ⟨h1, h2, h3, h4, h5⟩ := h
  by_cases hr : s.sync = false ∧ s.buf = []
  · -- the resync branch fires, so all existing chunks are degenerate
    have hK := h4 hr.1 hr.2
    simp only [handle_packet, resyncState, if_pos hr]
    split
    · rename_i hdis
      refine ⟨hm, h2, ?_, ?_, ?_⟩
      · intro c hc
        exact le_trans (hK c hc) (le_max_right _ _)
      · intro _ _
        exact hK
      · intro h0
        dsimp only at h0 hdis
        omega
    · rename_i hdis
      have hcd : copyData { s with start := p.myS } p = p.data := by
        simp [copyData]
      have hco : copyOffset { s with start := p.myS } p = 0 := by
        simp [copyOffset]
      refine ⟨hm, chunkInsert_sorted _ _ _ _ h2, ?_, ?_, ?_⟩
      · -- claimed chunk ends stay within the new extent
        simp only [extent]
        try dsimp only
        rw [hcd, hco]
        refine accept_J _ _ _ _ _ _ ?_ ?_
        · intro c hc
          exact le_trans (hK c hc) (le_max_right _ _)
        · have hB := splice_length_ge s.buf p.data 0
          omega
      · -- unsynced empty-buffer states keep only degenerate chunks
        intro hsy hbe
        dsimp only at hsy hbe
        rw [hcd, hco] at hbe
        have hdata : p.data = [] := (splice_eq_nil hbe).2.1
        try dsimp only
        refine accept_K _ _ _ _ ?_ hK
        rw [hdata]
        simp
      · intro h0
        try dsimp only at h0 ⊢
        left
        rw [if_pos h0]
  · -- no resync: the stream keeps its position
    simp only [handle_packet, resyncState, if_neg hr]
    split
    · exact ⟨h1, h2, h3, h4, h5⟩
    · rename_i hdis
      try dsimp only at hdis
      push_neg at hdis
      simp only [pktEnd] at hdis
      have hmle : (p.myS + p.data.length) % 2 ^ 32 ≤ p.myS + p.data.length :=
        Nat.mod_le _ _
      have hsp := splice_length_ge s.buf (copyData s p) (copyOffset s p)
      have hspd := splice_length_ge_dest s.buf (copyData s p) (copyOffset s p)
      have hA : p.myS + p.data.length ≤
          s.start + (copy_slice_into_vec_deque s.buf (copyData s p) (copyOffset s p)).length := by
        rcases lt_or_ge p.myS s.start with hlt | hge
        · have hcd : (copyData s p).length = p.data.length - (s.start - p.myS) := by
            simp only [copyData]
            rw [if_pos hlt, List.length_drop]
          have hco : copyOffset s p = 0 := by
            simp only [copyOffset]
            rw [if_pos hlt]
          omega
        · have hcd : (copyData s p).length = p.data.length := by
            simp only [copyData]
            rw [if_neg (not_lt.mpr hge)]
          have hco : copyOffset s p = p.myS - s.start := by
            simp only [copyOffset]
            rw [if_neg (not_lt.mpr hge)]
          omega
      refine ⟨h1, chunkInsert_sorted _ _ _ _ h2, ?_, ?_, ?_⟩
      · simp only [extent]
        try dsimp only
        refine accept_J _ _ _ _ _ _ ?_ hA
        intro c hc
        refine le_trans (h3 c hc) ?_
        simp only [extent]
        omega
      · intro hsy hbe
        dsimp only at hsy hbe
        exfalso
        have hnil := splice_eq_nil hbe
        have hsync : s.sync = false := by
          by_cases h0 : s.start = 0
          · rw [if_pos h0] at hsy
            exact absurd hsy (by simp)
          · rwa [if_neg h0] at hsy
        exact hr ⟨hsync, hnil.1⟩
      · intro h0
        try dsimp only at h0 ⊢
        left
        rw [if_pos h0]

theorem inv_next {s : TfhStream} (h : Inv s) : Inv (next_message s).2 := by
  obtain ⟨h1, h2, h3, h4, h5⟩ := h
  have havle : count_avail s ≤ s.buf.length := avail_le_buf ⟨h1, h2, h3, h4, h5⟩
  rw [next_message]
  split
  · -- prologue branch
    rename_i hp
    obtain ⟨hs0, hav⟩ := hp
    have hbuf : 1 ≤ s.buf.length := le_trans hav havle
    refine ⟨?_, h2, ?_, ?_, ?_⟩
    · try dsimp only
      rw [hs0]
      norm_num
    · intro c hc
      refine le_trans (h3 c hc) ?_
      simp only [extent]
      try dsimp only
      rw [hs0]
      simp only [List.length_drop]
      omega
    · intro hsy hbe
      try dsimp only at hsy hbe
      rcases h5 hs0 with hsync | hchunks
      · rw [hsync] at hsy
        exact absurd hsy (by simp)
      · rw [hchunks]
        intro c hc
        simp at hc
    · intro h0
      try dsimp only at h0
      rw [hs0] at h0
      norm_num at h0
  · split
    · exact ⟨h1, h2, h3, h4, h5⟩
    · split
      · exact ⟨h1, h2, h3, h4, h5⟩
      · -- framed branch
        rename_i hp hlt4 hltlen
        push_neg at hlt4 hltlen
        have hE0 : countAvailEnd s.chunks s.start < 2 ^ 32 := countAvailEnd_lt _ _ h1
        have hge : s.start ≤ countAvailEnd s.chunks s.start := countAvailEnd_ge _ _
        have havail : 4 + frameLen s ≤ count_avail s := hltlen
        have hnowrap : s.start + (4 + frameLen s) < 2 ^ 32 := by
          simp only [count_avail] at havail
          omega
        have hEe : frameEnd s = s.start + (4 + frameLen s) := by
          rw [frameEnd, Nat.mod_eq_of_lt hnowrap]
        have hcons : frameEnd s - s.start ≤ s.buf.length := by
          simp only [count_avail] at havail
          omega
        refine ⟨?_, ?_, ?_, ?_, ?_⟩
        · try dsimp only
          omega
        · exact List.Pairwise.sublist (sweep_sublist _ _ _) h2
        · intro c hc
          have hmem := sweep_mem hc
          refine le_trans (h3 c hmem) ?_
          simp only [extent]
          try dsimp only
          simp only [List.length_drop]
          omega
        · intro hsy hbe
          try dsimp only at hsy hbe
          rw [List.drop_eq_nil_iff] at hbe
          have hext : extent s = frameEnd s := by
            simp only [extent]
            simp only [count_avail] at havail
            omega
          have hJ : ∀ c ∈ s.chunks, chunkVal c ≤ max (frameEnd s) c.cs := by
            intro c hc
            exact hext ▸ h3 c hc
          exact sweep_survivors s.chunks (frameEnd s) h2 hJ 0
        · intro h0
          try dsimp only at h0
          omega

theorem inv_reach {s : TfhStream} (h : Reach s) : Inv s := by
  induction h with
  | new =>
      refine ⟨by norm_num [TfhStream.new], ?_, ?_, ?_, ?_⟩
      · simp [TfhStream.new, SortedChunks]
      · intro c hc
        simp [TfhStream.new] at hc
      · intro _ _ c hc
        simp [TfhStream.new] at hc
      · intro h0
        norm_num [TfhStream.new] at h0
  | handle s p _ hm _ _ ih => exact inv_handle p ih hm
  | next s _ ih => exact inv_next ih

/-! Section: Monotonicity of the availability sweep -/

theorem countAvailEnd_cons (c : Chunk) (l : List Chunk) (e : Nat) :
    countAvailEnd (c :: l) e =
      if e < c.cs then e else countAvailEnd l (max e ((c.cs + c.cl) % 2 ^ 32)) := rfl

theorem countAvailEnd_mono (l : List Chunk) :
    ∀ e1 e2, e1 ≤ e2 → countAvailEnd l e1 ≤ countAvailEnd l e2 := by
  induction l with
  | nil => intro e1 e2 h; simpa [countAvailEnd] using h
  | cons c rest ih =>
      intro e1 e2 h
      rw [countAvailEnd_cons, countAvailEnd_cons]
      split
      · split
        · exact h
        · exact le_trans h (le_trans (le_max_left _ _) (countAvailEnd_ge _ _))
      · split
        · rename_i h1 h2
          omega
        · exact ih _ _ (max_le_max h (le_refl _))

theorem countAvailEnd_insert (l : List Chunk) (cs cl ack : Nat)
    (hl : ∀ c ∈ l, c.cs + c.cl < 2 ^ 32) (hcs : cs + cl < 2 ^ 32) :
    ∀ e, countAvailEnd l e ≤ countAvailEnd (chunkInsert l cs cl ack) e := by
  induction l with
  | nil =>
      intro e
      simp only [chunkInsert, countAvailEnd]
      split
      · exact le_refl e
      · exact le_max_left _ _
  | cons c rest ih =>
      intro e
      simp only [chunkInsert]
      split
      · rename_i hlt
        rw [countAvailEnd_cons c rest,
          countAvailEnd_cons (⟨cs, cl, ack⟩ : Chunk) (c :: rest)]
        by_cases h1 : e < cs
        · rw [if_pos h1, if_pos (lt_trans h1 hlt)]
        · rw [if_neg h1]
          split
          · exact le_trans (le_max_left _ _) (countAvailEnd_ge _ _)
          · rename_i h2
            rw [countAvailEnd_cons c rest, if_neg (by
              have := le_max_left e (((⟨cs, cl, ack⟩ : Chunk).cs + (⟨cs, cl, ack⟩ : Chunk).cl) % 2 ^ 32)
              omega)]
            exact countAvailEnd_mono _ _ _
              (max_le_max (le_max_left _ _) (le_refl _))
      · split
        · rename_i hge heq
          rw [countAvailEnd_cons c rest,
            countAvailEnd_cons (⟨cs, max c.cl cl, max c.ack ack⟩ : Chunk) rest]
          have hc := hl c (List.mem_cons_self _ _)
          by_cases h1 : e < c.cs
          · rw [if_pos h1, if_pos (by dsimp only; omega)]
          · rw [if_neg h1, if_neg (by dsimp only; omega)]
            refine countAvailEnd_mono _ _ _ (max_le_max (le_refl _) ?_)
            try dsimp only
            rw [Nat.mod_eq_of_lt hc, Nat.mod_eq_of_lt (by omega)]
            omega
        · rename_i hge hne
          rw [countAvailEnd_cons c rest, countAvailEnd_cons c (chunkInsert rest cs cl ack)]
          by_cases h1 : e < c.cs
          · rw [if_pos h1, if_pos h1]
          · rw [if_neg h1, if_neg h1]
            exact ih (fun b hb => hl b (List.mem_cons_of_mem _ hb)) _

/-! Section: Idempotence of `handle_packet` -/

theorem splice_mid (d sr : List Nat) (o : Nat) :
    ((copy_slice_into_vec_deque d sr o).drop o).take sr.length = sr := by
  rw [copy_slice_into_vec_deque]
  split
  · rename_i h
    rw [List.drop_left' (by simp; omega)]
    simp
  · rename_i h
    push_neg at h
    rw [List.append_assoc, List.drop_left' (by simp; omega), List.take_left' rfl]

theorem splice_self (r sr : List Nat) (o : Nat) (hlen : o + sr.length ≤ r.length)
    (hmid : (r.drop o).take sr.length = sr) :
    copy_slice_into_vec_deque r sr o = r := by
  rw [copy_slice_into_vec_deque]
  split
  · rename_i h
    have hsr : sr = [] := List.length_eq_zero.mp (by omega)
    have ho : o = r.length := by omega
    subst hsr
    simp [ho]
  · rename_i h
    push_neg at h
    rw [List.append_assoc]
    conv_rhs => rw [← List.take_append_drop o r]
    congr 1
    conv_rhs => rw [← List.take_append_drop sr.length (r.drop o), hmid]
    congr 1
    rw [List.drop_drop, Nat.add_comm]

theorem splice_idem (d sr : List Nat) (o : Nat) :
    copy_slice_into_vec_deque (copy_slice_into_vec_deque d sr o) sr o =
      copy_slice_into_vec_deque d sr o :=
  splice_self _ _ _ (splice_length_ge d sr o) (splice_mid d sr o)

theorem chunkInsert_idem (l : List Chunk) (cs cl ack : Nat) :
    chunkInsert (chunkInsert l cs cl ack) cs cl ack = chunkInsert l cs cl ack := by
  induction l with
  | nil => simp [chunkInsert]
  | cons c rest ih =>
      simp only [chunkInsert]
      split
      · rename_i hlt
        simp [chunkInsert]
      · split
        · rename_i hge heq
          simp [chunkInsert, max_assoc]
        · rename_i hge hne
          simp only [chunkInsert]
          rw [if_neg hge, if_neg hne, ih]

theorem resync_self (t : TfhStream) (p : Dgram) (h : t.start = p.myS) :
    resyncState t p = t := by
  rw [resyncState]
  split
  · rw [← h]
  · rfl

theorem copyData_self (t : TfhStream) (p : Dgram) (h : t.start = p.myS) :
    copyData t p = p.data := by
  simp [copyData, h]

theorem copyOffset_self (t : TfhStream) (p : Dgram) (h : t.start = p.myS) :
    copyOffset t p = 0 := by
  simp [copyOffset, h]

/-- A `handle_packet` call that accepts the packet but changes nothing
returns the state unchanged. -/
theorem handle_fixpoint (r : TfhStream) (p : Dgram)
    (hst : ¬ pktEnd p < r.start)
    (hres : resyncState r p = r)
    (hbuf : copy_slice_into_vec_deque r.buf (copyData r p) (copyOffset r p) = r.buf)
    (hsync : (if r.start = 0 then true else r.sync) = r.sync)
    (hchunks : chunkInsert r.chunks p.myS (p.data.length % 2 ^ 32) p.yourS = r.chunks) :
    handle_packet r p = r := by
  simp only [handle_packet]
  rw [hres, if_neg hst, hbuf, hsync, hchunks]

theorem handle_idem (s : TfhStream) (p : Dgram) :
    handle_packet (handle_packet s p) p = handle_packet s p := by
  by_cases hr : s.sync = false ∧ s.buf = []
  · by_cases hd : pktEnd p < p.myS
    · have h1 : handle_packet s p = { s with start := p.myS } := by
        simp only [handle_packet, resyncState, if_pos hr]
        rw [if_pos (show pktEnd p < ({ s with start := p.myS } : TfhStream).start from hd)]
      rw [h1]
      simp only [handle_packet]
      rw [resync_self _ _ rfl,
        if_pos (show pktEnd p < ({ s with start := p.myS } : TfhStream).start from hd)]
    · have h1 : handle_packet s p =
          { s with start := p.myS,
                   buf := copy_slice_into_vec_deque s.buf p.data 0,
                   sync := if p.myS = 0 then true else s.sync,
                   chunks := chunkInsert s.chunks p.myS (p.data.length % 2 ^ 32) p.yourS } := by
        simp only [handle_packet, resyncState, if_pos hr]
        rw [if_neg (show ¬ pktEnd p < ({ s with start := p.myS } : TfhStream).start from hd)]
        rw [show copyData { s with start := p.myS } p = p.data from copyData_self _ _ rfl,
          show copyOffset { s with start := p.myS } p = 0 from copyOffset_self _ _ rfl]
      rw [h1]
      refine handle_fixpoint _ p hd (resync_self _ _ rfl) ?_ ?_ ?_
      · rw [copyData_self _ _ rfl, copyOffset_self _ _ rfl]
        exact splice_idem s.buf p.data 0
      · show (if p.myS = 0 then true else if p.myS = 0 then true else s.sync) =
          if p.myS = 0 then true else s.sync
        by_cases h0 : p.myS = 0 <;> simp [h0]
      · exact chunkInsert_idem s.chunks p.myS (p.data.length % 2 ^ 32) p.yourS
  · have ht : resyncState s p = s := by
      rw [resyncState, if_neg hr]
    by_cases hd : pktEnd p < s.start
    · have h1 : handle_packet s p = s := by
        simp only [handle_packet]
        rw [ht, if_pos hd]
      rw [h1, h1]
    · have h1 : handle_packet s p =
          { s with buf := copy_slice_into_vec_deque s.buf (copyData s p) (copyOffset s p),
                   sync := if s.start = 0 then true else s.sync,
                   chunks := chunkInsert s.chunks p.myS (p.data.length % 2 ^ 32) p.yourS } := by
        simp only [handle_packet]
        rw [ht, if_neg hd]
      rw [h1]
      refine handle_fixpoint _ p hd ?_ ?_ ?_ ?_
      · rw [resyncState]
        by_cases h0 : s.start = 0
        · exact if_neg (by simp [h0])
        · refine if_neg ?_
          rintro ⟨hsy, hbe⟩
          have hsy' : (if s.start = 0 then true else s.sync) = false := hsy
          rw [if_neg h0] at hsy'
          have hbe' : copy_slice_into_vec_deque s.buf (copyData s p) (copyOffset s p) = [] := hbe
          exact hr ⟨hsy', (splice_eq_nil hbe').1⟩
      · exact splice_idem s.buf (copyData s p) (copyOffset s p)
      · show (if s.start = 0 then true else if s.start = 0 then true else s.sync) =
          if s.start = 0 then true else s.sync
        by_cases h0 : s.start = 0 <;> simp [h0]
      · exact chunkInsert_idem s.chunks p.myS (p.data.length % 2 ^ 32) p.yourS

/-! Section: Ack attribution of the consumption sweep -/

/-- The highest reverse-direction acknowledgement among the chunks that
contribute to (overlap) the consumed range `[st, e)`, as §4.2 step 6 of
the spec describes the sweep's outcome. -/
def contribAck (st e : Nat) (l : List Chunk) : Nat :=
  l.foldl (fun a c => if c.cs < e ∧ st < c.cs + c.cl then max a c.ack else a) 0

theorem foldl_ack_no_contrib (st e : Nat) (l : List Chunk)
    (h : ∀ c ∈ l, e ≤ c.cs) :
    ∀ a, l.foldl (fun a c => if c.cs < e ∧ st < c.cs + c.cl then max a c.ack else a) a = a := by
  induction l with
  | nil => intro a; rfl
  | cons c rest ih =>
      intro a
      have hc := h c (List.mem_cons_self _ _)
      simp only [List.foldl_cons, if_neg (by omega : ¬(c.cs < e ∧ st < c.cs + c.cl))]
      exact ih (fun b hb => h b (List.mem_cons_of_mem _ hb)) a

/-- For pairwise non-overlapping chunks that all extend past `st` and do
not wrap, the sweep's acknowledgement equals the maximum over the chunks
overlapping `[st, e)`. -/
theorem sweep_ack (l : List Chunk) (st e : Nat)
    (hdisj : List.Pairwise (fun a b => a.cs + a.cl ≤ b.cs) l)
    (hnw : ∀ c ∈ l, c.cs + c.cl < 2 ^ 32)
    (hpast : ∀ c ∈ l, st < c.cs + c.cl) :
    ∀ a, (sweepChunks l e a).1 =
      l.foldl (fun a c => if c.cs < e ∧ st < c.cs + c.cl then max a c.ack else a) a := by
  induction l with
  | nil => intro a; rfl
  | cons c rest ih =>
      rw [List.pairwise_cons] at hdisj
      obtain ⟨hhead, hrest⟩ := hdisj
      intro a
      have hcnw := hnw c (List.mem_cons_self _ _)
      have hcpast := hpast c (List.mem_cons_self _ _)
      simp only [sweepChunks, List.foldl_cons]
      split
      · rename_i he
        rw [if_neg (by omega : ¬(c.cs < e ∧ st < c.cs + c.cl))]
        rw [foldl_ack_no_contrib st e rest (fun b hb => by have := hhead b hb; omega) a]
      · rename_i he
        push_neg at he
        rw [if_pos (show c.cs < e ∧ st < c.cs + c.cl from ⟨he, hcpast⟩)]
        split
        · rename_i hrem
          exact ih hrest (fun b hb => hnw b (List.mem_cons_of_mem _ hb))
            (fun b hb => hpast b (List.mem_cons_of_mem _ hb)) (max a c.ack)
        · rename_i hkeep
          rw [Nat.mod_eq_of_lt hcnw] at hkeep
          push_neg at hkeep
          try dsimp only
          rw [foldl_ack_no_contrib st e rest (fun b hb => by have := hhead b hb; omega)]

/-- For sorted, pairwise non-overlapping, non-wrapping chunks, every
chunk that starts before `e` and ends at or before `e` is removed by the
sweep. -/
theorem sweep_removes (l : List Chunk) (e : Nat)
    (hs : SortedChunks l)
    (hdisj : List.Pairwise (fun a b => a.cs + a.cl ≤ b.cs) l)
    (hnw : ∀ c ∈ l, c.cs + c.cl < 2 ^ 32) :
    ∀ a, ∀ c ∈ l, c.cs < e → c.cs + c.cl ≤ e → c ∉ (sweepChunks l e a).2 := by
  induction l with
  | nil => intro a c hc; simp at hc
  | cons h0 rest ih =>
      rw [SortedChunks, List.pairwise_cons] at hs
      obtain ⟨hsh, hsr⟩ := hs
      rw [List.pairwise_cons] at hdisj
      obtain ⟨hdh, hdr⟩ := hdisj
      intro a c hc hlt hle
      have h0nw := hnw h0 (List.mem_cons_self _ _)
      simp only [sweepChunks]
      split
      · rename_i he
        -- every member starts at or after `e`, contradicting `c.cs < e`
        exfalso
        rcases List.mem_cons.mp hc with rfl | hmem
        · omega
        · have := hsh c hmem
          omega
      · rename_i he
        push_neg at he
        split
        · rename_i hrem
          rcases List.mem_cons.mp hc with rfl | hmem
          · intro hmem2
            have := hsh c (sweep_mem hmem2)
            omega
          · exact ih hsr hdr (fun b hb => hnw b (List.mem_cons_of_mem _ hb)) _ c hmem hlt hle
        · rename_i hkeep
          rw [Nat.mod_eq_of_lt h0nw] at hkeep
          push_neg at hkeep
          rcases List.mem_cons.mp hc with rfl | hmem
          · omega
          · have := hdh c hmem
            omega

/-- A successful `next_message` on a reachable state advances `start` by
exactly the consumed length: 1 for the prologue byte, `4 + frame_len`
for a framed message. -/
theorem next_message_advance (s : TfhStream) (m : Message) (s' : TfhStream)
    (hre : Reach s) (heq : next_message s = (some m, s')) :
    s'.start = s.start + (if s.start = 0 then 1 else 4 + frameLen s) := by
  obtain ⟨h1, _, _, _, _⟩ := inv_reach hre
  rw [next_message] at heq
  split at heq
  · rename_i hp
    simp only [Prod.mk.injEq, Option.some.injEq] at heq
    obtain ⟨_, hs'⟩ := heq
    rw [← hs']
    try dsimp only
    rw [if_pos hp.1, hp.1]
    norm_num
  · rename_i hp
    split at heq
    · simp at heq
    · split at heq
      · simp at heq
      · rename_i hlt4 hltlen
        push_neg at hlt4 hltlen
        have hs0 : s.start ≠ 0 := by
          intro h0
          exact hp ⟨h0, by omega⟩
        simp only [Prod.mk.injEq, Option.some.injEq] at heq
        obtain ⟨_, hs'⟩ := heq
        rw [← hs']
        try dsimp only
        rw [if_neg hs0]
        have hE0 := countAvailEnd_lt s.chunks s.start h1
        have hge := countAvailEnd_ge s.chunks s.start
        have hnw : s.start + (4 + frameLen s) < 2 ^ 32 := by
          simp only [count_avail] at hltlen
          omega
        rw [frameEnd, Nat.mod_eq_of_lt hnw]

/-! Section: The claims -/

/-- C1 (counterexample): the reorder-tolerance claim fails as stated.
The datagrams `{seq=0, 12-byte frame}` and `{seq=12, [1,2]}` have
non-overlapping ranges covering `[0, 14)`, yet the two feeding orders
emit different message sequences: a fresh stream adopts the first
datagram's sequence number as its start, so the order that begins with
the `seq=12` datagram silently discards the stream prefix and never
emits the prologue message the other order emits. -/
theorem reorder_tolerance_cex :
    runMessages [⟨0, 0, [0, 0, 0, 8, 0, 0, 0, 0, 0, 0, 0, 0]⟩, ⟨12, 0, [1, 2]⟩] ≠
      runMessages [⟨12, 0, [1, 2]⟩, ⟨0, 0, [0, 0, 0, 8, 0, 0, 0, 0, 0, 0, 0, 0]⟩] := by
  decide

/-- C1 (amended): reorder tolerance holds only for permutations that
feed the datagram containing sequence 0 first.  For the covering set
`d0={seq=0,[0xAA,0,0,0,8]}`, `d1={seq=5,[0,0,0,0]}`, `d2={seq=9,[0,7,8,9]}`
of the 13-byte stream `[0xAA] ++ frame(len=8, major=7, body=[8,9])`,
both orders of the remaining datagrams yield the identical sequence:
the prologue byte message followed by the frame message. -/
theorem reorder_tolerance_amended :
    runMessages [⟨0, 2, [0xAA, 0, 0, 0, 8]⟩, ⟨5, 3, [0, 0, 0, 0]⟩, ⟨9, 1, [0, 7, 8, 9]⟩] =
      runMessages [⟨0, 2, [0xAA, 0, 0, 0, 8]⟩, ⟨9, 1, [0, 7, 8, 9]⟩, ⟨5, 3, [0, 0, 0, 0]⟩] ∧
    runMessages [⟨0, 2, [0xAA, 0, 0, 0, 8]⟩, ⟨5, 3, [0, 0, 0, 0]⟩, ⟨9, 1, [0, 7, 8, 9]⟩] =
      [⟨0, 0, 0xff, 0, 1, [0xAA]⟩, ⟨7, 0, 0xff, 3, 2, [8, 9]⟩] := by
  decide

/-- C2: buffer-coverage invariant.  For every `TfhStream` state
reachable from `new()` by `handle_packet` and `next_message` calls, the
contiguous-prefix length `count_avail()` is at most `buf.len()`: every
byte counted as available is actually held in `buf`. -/
theorem buffer_coverage (s : TfhStream) (h : Reach s) :
    count_avail s ≤ s.buf.length :=
  avail_le_buf (inv_reach h)

theorem buffer_coverage_witness :
    Reach (handle_packet TfhStream.new ⟨0, 0, [1, 2, 3]⟩) ∧
      count_avail (handle_packet TfhStream.new ⟨0, 0, [1, 2, 3]⟩) ≤
        (handle_packet TfhStream.new ⟨0, 0, [1, 2, 3]⟩).buf.length := by
  have hr : Reach (handle_packet TfhStream.new ⟨0, 0, [1, 2, 3]⟩) :=
    Reach.handle _ _ Reach.new (by norm_num) (by norm_num) (by decide)
  exact ⟨hr, buffer_coverage _ hr⟩

/-- C3 (counterexample): duplicate feeding is not idempotent.  Datagram
`p = {seq=0, ack=100, 13-byte stream}` is fully consumed after the first
feed-and-drain; feeding `p` again re-inserts its chunk (its end equals
the current start), so the message parsed from the following datagram
`q = {seq=13, ack=5, ...}` reports ack 100 instead of 5. -/
theorem duplicate_idempotence_cex :
    runMessages [⟨0, 100, [0xAA, 0, 0, 0, 8, 0, 0, 0, 0, 0, 7, 8, 9]⟩,
        ⟨13, 5, [0, 0, 0, 8, 0, 0, 0, 0, 0, 9, 1, 2]⟩] ≠
      runMessages [⟨0, 100, [0xAA, 0, 0, 0, 8, 0, 0, 0, 0, 0, 7, 8, 9]⟩,
        ⟨0, 100, [0xAA, 0, 0, 0, 8, 0, 0, 0, 0, 0, 7, 8, 9]⟩,
        ⟨13, 5, [0, 0, 0, 8, 0, 0, 0, 0, 0, 9, 1, 2]⟩] := by
  decide

/-- C3 (amended): duplicates are idempotent only while no consumption
intervenes: `handle_packet` is idempotent on every state and datagram,
so feeding the same datagram repeatedly back-to-back (before any
`next_message` call in between) leaves the reassembler state — and hence
every later observable — identical to feeding it once.  A duplicate that
arrives after its bytes were consumed may re-insert its chunk and
inflate a later message's ack (see the counterexample). -/
theorem duplicate_idempotence_amended (s : TfhStream) (p : Dgram) :
    handle_packet (handle_packet s p) p = handle_packet s p :=
  handle_idem s p

/-- C4 (counterexample): `start` is not non-decreasing across
`handle_packet` calls.  Two empty datagrams leave the buffer empty and
the stream unsynced, so each fires the best-effort resync: after
`{seq=5}` then `{seq=3}`, `start` drops from 5 to 3. -/
theorem reassembler_monotonicity_cex :
    (handle_packet (handle_packet TfhStream.new ⟨5, 0, []⟩) ⟨3, 0, []⟩).start <
      (handle_packet TfhStream.new ⟨5, 0, []⟩).start := by
  decide

/-- C4 (amended): `start` is unchanged (hence non-decreasing) by any
`handle_packet` call that does not fire the best-effort resync (i.e.
when the stream is synced or its buffer is non-empty); `count_avail` is
non-decreasing across such calls provided no recorded chunk end and no
`seq + len` wraps the 32-bit space; and a successful `next_message`
advances `start` by exactly the consumed length: 1 for the prologue
byte, `4 + frame_len` for a framed message. -/
theorem reassembler_monotonicity_amended :
    (∀ s p, ¬(s.sync = false ∧ s.buf = []) →
      (handle_packet s p).start = s.start) ∧
    (∀ s p, ¬(s.sync = false ∧ s.buf = []) →
      (∀ c ∈ s.chunks, c.cs + c.cl < 2 ^ 32) → p.myS + p.data.length < 2 ^ 32 →
      count_avail s ≤ count_avail (handle_packet s p)) ∧
    (∀ s m s', Reach s → next_message s = (some m, s') →
      s'.start = s.start + (if s.start = 0 then 1 else 4 + frameLen s)) := by
  refine ⟨?_, ?_, next_message_advance⟩
  · intro s p hr
    simp only [handle_packet, resyncState, if_neg hr]
    split
    · rfl
    · rfl
  · intro s p hr hl hp
    simp only [handle_packet, resyncState, if_neg hr]
    split
    · exact le_refl _
    · simp only [count_avail]
      try dsimp only
      have hmod := Nat.mod_le p.data.length (2 ^ 32)
      have hstep := countAvailEnd_insert s.chunks p.myS (p.data.length % 2 ^ 32)
        p.yourS hl (by omega) s.start
      omega

theorem reassembler_monotonicity_witness :
    ((handle_packet (handle_packet TfhStream.new ⟨0, 0, [0xAA]⟩) ⟨1, 0, [5]⟩).start =
      (handle_packet TfhStream.new ⟨0, 0, [0xAA]⟩).start) ∧
    (count_avail (handle_packet TfhStream.new ⟨0, 0, [0xAA]⟩) ≤
      count_avail (handle_packet (handle_packet TfhStream.new ⟨0, 0, [0xAA]⟩) ⟨1, 0, [5]⟩)) ∧
    ((next_message (handle_packet TfhStream.new ⟨0, 0, [0xAA]⟩)).2.start =
      (handle_packet TfhStream.new ⟨0, 0, [0xAA]⟩).start +
        (if (handle_packet TfhStream.new ⟨0, 0, [0xAA]⟩).start = 0 then 1
         else 4 + frameLen (handle_packet TfhStream.new ⟨0, 0, [0xAA]⟩))) := by
  have hre : Reach (handle_packet TfhStream.new ⟨0, 0, [0xAA]⟩) :=
    Reach.handle _ _ Reach.new (by norm_num) (by norm_num) (by decide)
  refine ⟨reassembler_monotonicity_amended.1 _ _ (by decide),
    reassembler_monotonicity_amended.2.1 _ _ (by decide) (by decide) (by decide),
    reassembler_monotonicity_amended.2.2 _ ⟨0, 0, 0xff, 0, 1, [0xAA]⟩
      ⟨1, [], [⟨0, 1, 0⟩], true⟩ hre (by decide)⟩

/-- C5 (counterexample): the ack of a framed message is not the highest
`peer_ack` over all chunks contributing to the consumed range, and
chunks wholly inside the range are not all removed.  With overlapping
chunks `(1,10,50)`, `(2,10,99)`, `(3,6,200)` and a message consuming
`[1, 11)`, the sweep stops at the partial chunk `(2,10,99)`: the
returned ack is 99 although chunk `(3,6,200)` lies wholly inside
`[3, 9) ⊆ [1, 11)` with the higher ack 200, and that chunk survives in
`chunks`. -/
theorem ack_attribution_cex :
    next_message (handle_packet (handle_packet (handle_packet TfhStream.new
        ⟨1, 50, [0, 0, 0, 6, 0, 0, 0, 0, 0, 42]⟩)
        ⟨2, 99, [0, 0, 6, 0, 0, 0, 0, 0, 42, 77]⟩)
        ⟨3, 200, [0, 6, 0, 0, 0, 0]⟩) =
      (some ⟨42, 0, 0xff, 99, 0, []⟩,
       ⟨11, [77], [⟨2, 10, 99⟩, ⟨3, 6, 200⟩], false⟩) ∧
    (⟨3, 6, 200⟩ : Chunk) ∈ (next_message (handle_packet (handle_packet (handle_packet
        TfhStream.new ⟨1, 50, [0, 0, 0, 6, 0, 0, 0, 0, 0, 42]⟩)
        ⟨2, 99, [0, 0, 6, 0, 0, 0, 0, 0, 42, 77]⟩)
        ⟨3, 200, [0, 6, 0, 0, 0, 0]⟩)).2.chunks := by
  decide

/-- C5 (amended): when the recorded chunks are sorted, pairwise
non-overlapping, non-wrapping and all extend past `start`, a framed
`next_message` returns exactly the highest `peer_ack` among the chunks
overlapping the consumed range `[start, start+4+frame_len)`, and every
chunk lying wholly inside that range is removed.  (With overlapping
chunks the sweep may stop early, skipping acks and retaining
wholly-contained chunks.) -/
theorem ack_attribution_amended (s : TfhStream) (m : Message) (s' : TfhStream)
    (hst : s.start ≠ 0)
    (hsorted : SortedChunks s.chunks)
    (hdisj : List.Pairwise (fun a b => a.cs + a.cl ≤ b.cs) s.chunks)
    (hnw : ∀ c ∈ s.chunks, c.cs + c.cl < 2 ^ 32)
    (hpast : ∀ c ∈ s.chunks, s.start < c.cs + c.cl)
    (hwrap : s.start + (4 + frameLen s) < 2 ^ 32)
    (heq : next_message s = (some m, s')) :
    m.ack = contribAck s.start (s.start + (4 + frameLen s)) s.chunks ∧
    ∀ c ∈ s.chunks, c.cs < s.start + (4 + frameLen s) →
      c.cs + c.cl ≤ s.start + (4 + frameLen s) → c ∉ s'.chunks := by
  rw [next_message] at heq
  split at heq
  · rename_i hp
    exact absurd hp.1 hst
  · split at heq
    · simp at heq
    · split at heq
      · simp at heq
      · simp only [Prod.mk.injEq, Option.some.injEq] at heq
        obtain ⟨hm, hs'⟩ := heq
        have hfe : frameEnd s = s.start + (4 + frameLen s) := by
          rw [frameEnd, Nat.mod_eq_of_lt hwrap]
        constructor
        · rw [← hm]
          try dsimp only
          rw [hfe]
          exact sweep_ack s.chunks s.start _ hdisj hnw hpast 0
        · intro c hc h1 h2
          rw [← hs']
          try dsimp only
          rw [hfe]
          exact sweep_removes s.chunks _ hsorted hdisj hnw 0 c hc h1 h2

theorem ack_attribution_witness :
    (⟨42, 0, 0xff, 7, 0, ([] : List Nat)⟩ : Message).ack =
      contribAck 1 (1 + (4 + frameLen (handle_packet TfhStream.new
        ⟨1, 7, [0, 0, 0, 6, 0, 0, 0, 0, 0, 42]⟩)))
        (handle_packet TfhStream.new ⟨1, 7, [0, 0, 0, 6, 0, 0, 0, 0, 0, 42]⟩).chunks ∧
    ∀ c ∈ (handle_packet TfhStream.new ⟨1, 7, [0, 0, 0, 6, 0, 0, 0, 0, 0, 42]⟩).chunks,
      c.cs < 1 + (4 + frameLen (handle_packet TfhStream.new
        ⟨1, 7, [0, 0, 0, 6, 0, 0, 0, 0, 0, 42]⟩)) →
      c.cs + c.cl ≤ 1 + (4 + frameLen (handle_packet TfhStream.new
        ⟨1, 7, [0, 0, 0, 6, 0, 0, 0, 0, 0, 42]⟩)) →
      c ∉ (next_message (handle_packet TfhStream.new
        ⟨1, 7, [0, 0, 0, 6, 0, 0, 0, 0, 0, 42]⟩)).2.chunks :=
  ack_attribution_amended
    (handle_packet TfhStream.new ⟨1, 7, [0, 0, 0, 6, 0, 0, 0, 0, 0, 42]⟩)
    ⟨42, 0, 0xff, 7, 0, []⟩
    ⟨11, [], [], false⟩
    (by decide)
    (by show SortedChunks [(⟨1, 10, 7⟩ : Chunk)]
        simp [SortedChunks])
    (by show List.Pairwise (fun a b => a.cs + a.cl ≤ b.cs) [(⟨1, 10, 7⟩ : Chunk)]
        simp)
    (by decide) (by decide) (by decide) (by decide)

/-- C6: the prologue byte.  Whenever a reachable `TfhStream` has
`start = Seq(0)` and `count_avail() ≥ 1`, `next_message` returns the
synthetic message `{major=0, minor=0, dir=0xff, ack=0, len=1,
body=[buf[0]]}` and advances `start` by 1; concretely, after a first
datagram with `seq=0` and payload `[0xAA, 0, 0, 0, 4]`, the first
`next_message` returns `{dir=0xff, len=1, body=[0xAA]}`, the second call
begins frame parsing at sequence 1 and returns `none` (the frame is
incomplete). -/
theorem prologue_byte :
    (∀ s, Reach s → s.start = 0 → 1 ≤ count_avail s →
      s.buf ≠ [] ∧
      next_message s = (some ⟨0, 0, 0xff, 0, 1, s.buf.take 1⟩,
        { s with start := 1, buf := s.buf.drop 1 })) ∧
    ((next_message (handle_packet TfhStream.new ⟨0, 0, [0xAA, 0, 0, 0, 4]⟩)).1 =
        some ⟨0, 0, 0xff, 0, 1, [0xAA]⟩ ∧
     (next_message (handle_packet TfhStream.new ⟨0, 0, [0xAA, 0, 0, 0, 4]⟩)).2.start = 1 ∧
     (next_message (next_message (handle_packet TfhStream.new
        ⟨0, 0, [0xAA, 0, 0, 0, 4]⟩)).2).1 = none) := by
  constructor
  · intro s hre h0 hav
    have hinv := inv_reach hre
    have hb : 1 ≤ s.buf.length := le_trans hav (avail_le_buf hinv)
    have hbne : s.buf ≠ [] := by
      intro hh
      rw [hh] at hb
      simp at hb
    refine ⟨hbne, ?_⟩
    rw [next_message, if_pos ⟨h0, hav⟩]
    have hb1 : s.buf.take 1 = [s.buf.headD 0] := by
      cases hbuf : s.buf with
      | nil => exact absurd hbuf hbne
      | cons a l => simp
    rw [hb1, h0]
    norm_num
  · exact ⟨by decide, by decide, by decide⟩

theorem prologue_byte_witness :
    (handle_packet TfhStream.new ⟨0, 0, [0xAA, 0, 0, 0, 4]⟩).buf ≠ [] ∧
      next_message (handle_packet TfhStream.new ⟨0, 0, [0xAA, 0, 0, 0, 4]⟩) =
        (some ⟨0, 0, 0xff, 0, 1,
          (handle_packet TfhStream.new ⟨0, 0, [0xAA, 0, 0, 0, 4]⟩).buf.take 1⟩,
         { handle_packet TfhStream.new ⟨0, 0, [0xAA, 0, 0, 0, 4]⟩ with
             start := 1,
             buf := (handle_packet TfhStream.new ⟨0, 0, [0xAA, 0, 0, 0, 4]⟩).buf.drop 1 }) :=
  prologue_byte.1 (handle_packet TfhStream.new ⟨0, 0, [0xAA, 0, 0, 0, 4]⟩)
    (Reach.handle _ _ Reach.new (by norm_num) (by norm_num) (by decide))
    (by decide) (by decide)

/-- C10: the claim that `next_message` never panics is wrong — the
`usize` computation `body_len = 4 + frame_len - header_len` underflows
for frames with `frame_len < 6` (and for `frame_len < 10` when
`major == 0x20`), which the source reaches for any such buffered frame
even though `raw_header_len = min(10, len)` shows short frames were
meant to be tolerated.  Feeding the single datagram
`{seq=1, ack=0, payload=[0,0,0,0]}` to a fresh stream and calling
`next_message` reaches the body extraction with `frame_len = 0` and
`header_len = 10`, so the subtraction underflows (a panic in debug
builds, an absurd allocation size in release builds).  The state is
reachable, and `bodyLenUnderflow` certifies the underflow. -/
theorem body_len_underflow_bug :
    bodyLenUnderflow (handle_packet TfhStream.new ⟨1, 0, [0, 0, 0, 0]⟩) = true ∧
      Reach (handle_packet TfhStream.new ⟨1, 0, [0, 0, 0, 0]⟩) :=
  ⟨by decide, Reach.handle _ _ Reach.new (by norm_num) (by norm_num) (by decide)⟩

/-! Section: UDP and IPv4 checksums -/

theorem onesAdd_le (x y : Nat) (hx : x ≤ 65535) (hy : y ≤ 65535) :
    ones_complement_add x y ≤ 65535 := by
  rw [ones_complement_add]
  split <;> omega

theorem foldl_onesAdd_le (l : List Nat) (hl : ∀ w ∈ l, w ≤ 65535) :
    ∀ a, a ≤ 65535 → l.foldl ones_complement_add a ≤ 65535 := by
  induction l with
  | nil => intro a ha; simpa using ha
  | cons w rest ih =>
      intro a ha
      simp only [List.foldl_cons]
      exact ih (fun b hb => hl b (List.mem_cons_of_mem _ hb)) _
        (onesAdd_le a w ha (hl w (List.mem_cons_self _ _)))

theorem checksumWords_eq : ∀ (l : List Nat) (a : Nat),
    checksumWords l a = (payloadWords l).foldl ones_complement_add a
  | [], _ => rfl
  | [_], _ => rfl
  | _ :: _ :: rest, a => by
      simp only [checksumWords, payloadWords, List.foldl_cons]
      exact checksumWords_eq rest _

theorem getD_lt {l : List Nat} (hl : ∀ b ∈ l, b < 256) (i : Nat) : l.getD i 0 < 256 := by
  induction l generalizing i with
  | nil => simp [List.getD]
  | cons a rest ih =>
      cases i with
      | zero => exact hl a (List.mem_cons_self _ _)
      | succ j =>
          simp only [List.getD_cons_succ]
          exact ih (fun b hb => hl b (List.mem_cons_of_mem _ hb)) j

theorem payloadWords_le : ∀ (l : List Nat), (∀ b ∈ l, b < 256) →
    ∀ w ∈ payloadWords l, w ≤ 65535
  | [], _ => by simp [payloadWords]
  | [b], h => by
      simp only [payloadWords, List.mem_singleton]
      rintro w rfl
      have := h b (by simp)
      omega
  | b0 :: b1 :: rest, h => by
      simp only [payloadWords, List.mem_cons]
      rintro w (rfl | hw)
      · have h0 := h b0 (by simp)
        have h1 := h b1 (by simp)
        omega
      · exact payloadWords_le rest (fun b hb => h b (by simp [hb])) w hw

theorem u32be_lt {p : List Nat} (hp : ∀ b ∈ p, b < 256) (i : Nat) : u32be p i < 2 ^ 32 := by
  have h0 := getD_lt hp i
  have h1 := getD_lt hp (i + 1)
  have h2 := getD_lt hp (i + 2)
  have h3 := getD_lt hp (i + 3)
  rw [u32be]
  omega

theorem u16be_lt {p : List Nat} (hp : ∀ b ∈ p, b < 256) (i : Nat) : u16be p i < 65536 := by
  have h0 := getD_lt hp i
  have h1 := getD_lt hp (i + 1)
  rw [u16be]
  omega

theorem word_hi (x : Nat) (hx : x < 2 ^ 32) :
    x / 2 ^ 24 % 256 * 256 + x / 2 ^ 16 % 256 = x / 2 ^ 16 := by
  omega

theorem word_lo (x : Nat) : x / 2 ^ 8 % 256 * 256 + x % 256 = x % 2 ^ 16 := by
  omega

theorem word16 (x : Nat) (hx : x < 65536) : x / 256 % 256 * 256 + x % 256 = x := by
  omega

/-- C7: the UDP checksum.  For every IPv4 packet (as bytes) and payload
slice, `compute_udp_checksum` equals the spec's formula — the bitwise
NOT of the one's-complement sum of the 20-byte pseudo-header
`{src_ip, dst_ip, 0x00, protocol, udp_length, src_port, dst_port,
udp_len_field, 0x0000}` followed by the payload taken as big-endian
16-bit words (a trailing odd byte shifted left by 8), with a computed
`0x0000` transmitted as `0xFFFF` — and consequently it never returns
`0x0000`. -/
theorem udp_checksum_matches_spec (p data : List Nat) (hp4 : is_ipv4 p = true)
    (hpb : ∀ b ∈ p, b < 256) (hdb : ∀ b ∈ data, b < 256) :
    compute_udp_checksum p data =
      some (udpChecksumSpec (source_ip p) (dest_ip p) (protocol p)
        (udp_source_port p) (udp_dest_port p) (udp_len_field p) data) ∧
    compute_udp_checksum p data ≠ some 0 := by
  have hsrc : source_ip p < 2 ^ 32 := u32be_lt hpb 12
  have hdst : dest_ip p < 2 ^ 32 := u32be_lt hpb 16
  have hproto : protocol p < 256 := getD_lt hpb 9
  have hsp : udp_source_port p < 65536 := u16be_lt hpb _
  have hdp : udp_dest_port p < 65536 := u16be_lt hpb _
  have hlf : udp_len_field p < 65536 := u16be_lt hpb _
  have hph : payloadWords (pseudo_header p data) =
      [source_ip p / 2 ^ 16, source_ip p % 2 ^ 16, dest_ip p / 2 ^ 16, dest_ip p % 2 ^ 16,
       protocol p, (data.length + 8) % 65536, udp_source_port p, udp_dest_port p,
       udp_len_field p, 0] := by
    simp only [pseudo_header, payloadWords]
    rw [word_hi _ hsrc, word_lo (source_ip p), word_hi _ hdst, word_lo (dest_ip p),
      word16 _ (Nat.mod_lt _ (by norm_num)), word16 _ hsp, word16 _ hdp, word16 _ hlf]
    norm_num
  have hacc : checksumWords data (checksumWords (pseudo_header p data) 0) =
      ([source_ip p / 2 ^ 16, source_ip p % 2 ^ 16, dest_ip p / 2 ^ 16, dest_ip p % 2 ^ 16,
        protocol p, (data.length + 8) % 65536, udp_source_port p, udp_dest_port p,
        udp_len_field p, 0] ++ payloadWords data).foldl ones_complement_add 0 := by
    rw [checksumWords_eq, checksumWords_eq, hph, List.foldl_append]
  have hwords : ∀ w ∈ ([source_ip p / 2 ^ 16, source_ip p % 2 ^ 16, dest_ip p / 2 ^ 16,
      dest_ip p % 2 ^ 16, protocol p, (data.length + 8) % 65536, udp_source_port p,
      udp_dest_port p, udp_len_field p, 0] ++ payloadWords data), w ≤ 65535 := by
    intro w hw
    rcases List.mem_append.mp hw with hw | hw
    · simp only [List.mem_cons, List.not_mem_nil, or_false] at hw
      rcases hw with rfl | rfl | rfl | rfl | rfl | rfl | rfl | rfl | rfl | rfl <;> omega
    · exact payloadWords_le data hdb w hw
  have haccle := foldl_onesAdd_le _ hwords 0 (by norm_num)
  rw [compute_udp_checksum, if_pos hp4]
  simp only [udpChecksumSpec]
  rw [hacc]
  constructor
  · by_cases hone : ([source_ip p / 2 ^ 16, source_ip p % 2 ^ 16, dest_ip p / 2 ^ 16,
        dest_ip p % 2 ^ 16, protocol p, (data.length + 8) % 65536, udp_source_port p,
        udp_dest_port p, udp_len_field p, 0] ++
          payloadWords data).foldl ones_complement_add 0 = 65535
    · rw [if_pos hone, hone]
      norm_num
    · rw [if_neg hone, if_neg (by omega)]
  · by_cases hone : ([source_ip p / 2 ^ 16, source_ip p % 2 ^ 16, dest_ip p / 2 ^ 16,
        dest_ip p % 2 ^ 16, protocol p, (data.length + 8) % 65536, udp_source_port p,
        udp_dest_port p, udp_len_field p, 0] ++
          payloadWords data).foldl ones_complement_add 0 = 65535
    · rw [if_pos hone]
      intro hcon
      have := Option.some.inj hcon
      omega
    · rw [if_neg hone]
      intro hcon
      have := Option.some.inj hcon
      omega

theorem udp_checksum_matches_spec_witness :
    compute_udp_checksum
        [0x45, 0, 0, 0x21, 0, 0, 0, 0, 0, 17, 0, 0, 1, 2, 3, 4, 5, 6, 7, 8,
         0x69, 0x87, 0x04, 0xd2, 0, 9, 0, 0] [0xAB] =
      some (udpChecksumSpec
        (source_ip [0x45, 0, 0, 0x21, 0, 0, 0, 0, 0, 17, 0, 0, 1, 2, 3, 4, 5, 6, 7, 8,
          0x69, 0x87, 0x04, 0xd2, 0, 9, 0, 0])
        (dest_ip [0x45, 0, 0, 0x21, 0, 0, 0, 0, 0, 17, 0, 0, 1, 2, 3, 4, 5, 6, 7, 8,
          0x69, 0x87, 0x04, 0xd2, 0, 9, 0, 0])
        (protocol [0x45, 0, 0, 0x21, 0, 0, 0, 0, 0, 17, 0, 0, 1, 2, 3, 4, 5, 6, 7, 8,
          0x69, 0x87, 0x04, 0xd2, 0, 9, 0, 0])
        (udp_source_port [0x45, 0, 0, 0x21, 0, 0, 0, 0, 0, 17, 0, 0, 1, 2, 3, 4, 5, 6, 7, 8,
          0x69, 0x87, 0x04, 0xd2, 0, 9, 0, 0])
        (udp_dest_port [0x45, 0, 0, 0x21, 0, 0, 0, 0, 0, 17, 0, 0, 1, 2, 3, 4, 5, 6, 7, 8,
          0x69, 0x87, 0x04, 0xd2, 0, 9, 0, 0])
        (udp_len_field [0x45, 0, 0, 0x21, 0, 0, 0, 0, 0, 17, 0, 0, 1, 2, 3, 4, 5, 6, 7, 8,
          0x69, 0x87, 0x04, 0xd2, 0, 9, 0, 0])
        [0xAB]) ∧
    compute_udp_checksum
        [0x45, 0, 0, 0x21, 0, 0, 0, 0, 0, 17, 0, 0, 1, 2, 3, 4, 5, 6, 7, 8,
         0x69, 0x87, 0x04, 0xd2, 0, 9, 0, 0] [0xAB] ≠ some 0 :=
  udp_checksum_matches_spec
    [0x45, 0, 0, 0x21, 0, 0, 0, 0, 0, 17, 0, 0, 1, 2, 3, 4, 5, 6, 7, 8,
     0x69, 0x87, 0x04, 0xd2, 0, 9, 0, 0] [0xAB]
    (by decide) (by decide) (by decide)

/-- C8 (counterexample): the IPv4 checksum fixture value in the spec is
wrong for the fixture's header bytes.  `compute_ipv4_checksum` on
`45 00 00 28 1c 46 40 00 40 06 00 00 ac 10 0a 63 ac 10 0a 0c` does not
return `0xb1e6`. -/
theorem ipv4_checksum_fixture_cex :
    compute_ipv4_checksum [0x45, 0x00, 0x00, 0x28, 0x1c, 0x46, 0x40, 0x00, 0x40, 0x06,
      0x00, 0x00, 0xac, 0x10, 0x0a, 0x63, 0xac, 0x10, 0x0a, 0x0c] ≠ 0xb1e6 := by
  decide

/-- C8 (amended): `compute_ipv4_checksum` applied to the fixture header
`45 00 00 28 1c 46 40 00 40 06 00 00 ac 10 0a 63 ac 10 0a 0c` (summing
the entire header with bytes 10-11 treated as zero, then the bitwise
NOT) returns `0xb1fa`, the RFC 1071 checksum of these bytes; the value
`0xb1e6` quoted by the spec belongs to a different well-known example
header. -/
theorem ipv4_checksum_fixture_amended :
    compute_ipv4_checksum [0x45, 0x00, 0x00, 0x28, 0x1c, 0x46, 0x40, 0x00, 0x40, 0x06,
      0x00, 0x00, 0xac, 0x10, 0x0a, 0x63, 0xac, 0x10, 0x0a, 0x0c] = 0xb1fa := by
  decide

/-! Section: The status rewriter (`src/process.rs`) -/

/-- The inner `while i < b.len() && b[i] != 0 { i += 1 }` loop of
`edit_server_status`, with fuel.  Fuel `b.length - i` is enough: the
loop body only runs while `i < b.length`. -/
def scanFrom (b : List Nat) : Nat → Nat → Nat
  | i, 0 => i
  | i, fuel + 1 =>
      if i < b.length ∧ b.getD i 0 ≠ 0 then scanFrom b (i + 1) fuel else i

/-- Advance `i` to the first index at or after `i` holding a NUL (or to
`b.length` if none). -/
def scanString (b : List Nat) (i : Nat) : Nat := scanFrom b i (b.length - i)

/-- The string-skipping scan of `edit_server_status`: starting at offset
6, four times skip to the next NUL and step past it. -/
def scan4 (b : List Nat) : Nat :=
  scanString b (scanString b (scanString b (scanString b 6 + 1) + 1) + 1) + 1

/-- Modelled from the spec: `Packet::update_udp_checksum` is not present
under `src/`; §4.4 of the spec says it recomputes the UDP checksum over
the pseudo-header and payload, which (per the offset table in §4.1) is
stored big-endian in bytes 6-7 of the UDP header. -/
def update_udp_checksum (p : List Nat) : List Nat :=
  let c := (compute_udp_checksum p (udp_payload p)).getD 0
  (p.set (udp_start p + 6) (c / 256 % 256)).set (udp_start p + 7) (c % 256)

/-- `edit_server_status`: requires a UDP packet, walks four
NUL-terminated strings from offset 6 of the UDP payload, requires
`i + 3 < payload.len()`, zeroes `payload[i + 2]` (the current-player
count) and recomputes the UDP checksum.  `none` models the
`Err("malformed packet")` returns of the `require!` macro. -/
def edit_server_status (p : List Nat) : Option (List Nat) :=
  if is_udp p = false then none
  else
    let b := udp_payload p
    let i := scan4 b
    if i + 3 < b.length then
      some (update_udp_checksum (p.set (udp_start p + 8 + (i + 2)) 0))
    else none

/-- The `Input::FromB` rewrite step of `process`: for a UDP packet whose
source port lies in `[27010, 27030]`, apply `edit_server_status`; on
error (`unwrap_or_else` prints one diagnostic line) the packet passes
through unmodified, as does any packet outside the port filter. -/
def processFromB (p : List Nat) : List Nat :=
  if is_udp p = true ∧ 27010 ≤ udp_source_port p ∧ udp_source_port p ≤ 27030 then
    match edit_server_status p with
    | some q => q
    | none => p
  else p

/-- C9: StatusRewriter fail-open atomicity.  `edit_server_status`
returns an error exactly when the packet is not UDP or when the scan of
four NUL-terminated strings from offset 6 does not leave at least four
more payload bytes; and whenever it returns an error, the processor
forwards the packet byte-for-byte unchanged (the mutation and checksum
update happen only on the success path). -/
theorem status_rewriter_fail_open :
    (∀ p : List Nat, edit_server_status p = none → processFromB p = p) ∧
    (∀ p : List Nat, edit_server_status p = none ↔
      (is_udp p = false ∨ ¬(scan4 (udp_payload p) + 3 < (udp_payload p).length))) := by
  constructor
  · intro p he
    rw [processFromB]
    split
    · rw [he]
    · rfl
  · intro p
    rw [edit_server_status]
    constructor
    · intro he
      split at he
      · rename_i hu
        exact Or.inl hu
      · simp only at he
        split at he
        · exact absurd he (by simp)
        · rename_i hscan
          exact Or.inr hscan
    · intro hor
      split
      · rfl
      · rename_i hu
        rcases hor with hu' | hscan
        · exact absurd hu' hu
        · simp only
          rw [if_neg hscan]

theorem status_rewriter_fail_open_witness :
    edit_server_status [0x45, 0, 0, 0x1c, 0, 0, 0, 0, 0, 17, 0, 0, 1, 2, 3, 4, 5, 6, 7, 8,
        0x69, 0x87, 0x04, 0xd2, 0, 8, 0, 0] = none ∧
      processFromB [0x45, 0, 0, 0x1c, 0, 0, 0, 0, 0, 17, 0, 0, 1, 2, 3, 4, 5, 6, 7, 8,
        0x69, 0x87, 0x04, 0xd2, 0, 8, 0, 0] =
        [0x45, 0, 0, 0x1c, 0, 0, 0, 0, 0, 17, 0, 0, 1, 2, 3, 4, 5, 6, 7, 8,
         0x69, 0x87, 0x04, 0xd2, 0, 8, 0, 0] := by
  have he : edit_server_status [0x45, 0, 0, 0x1c, 0, 0, 0, 0, 0, 17, 0, 0, 1, 2, 3, 4,
      5, 6, 7, 8, 0x69, 0x87, 0x04, 0xd2, 0, 8, 0, 0] = none := by decide
  exact ⟨he, status_rewriter_fail_open.1 _ he⟩

end TfhMitm